import Mathlib

/-!
Verification of the process-algebra-to-Petri-net core of the repository:
the parser in src/models/parser.py (class ProcessAlgebraParser) and the
reachability builder in src/models/Petri_Net_methods.py
(petri_to_state_machine).  Python strings are modelled as List Char,
Python dicts as insertion-ordered association lists, and the implicit
exception channel of parse() as Except String.  Recursion in
_parse_expression is fuel-indexed; the fuel given at each call site
(expression length + 1) dominates every terminating run of the Python
code, and fuel exhaustion models the RecursionError that Python raises
on the genuinely non-terminating inputs (caught at the parse() boundary).
-/

namespace ProcessNet

/-- Python str.strip character class (ASCII whitespace). -/
def isPySpace (c : Char) : Bool :=
  c = ' ' || c = '\t' || c = '\n' || c = '\r' || c = '\x0b' || c = '\x0c'

/-- Remove trailing characters satisfying isPySpace. -/
def trimRightChars : List Char → List Char
  | [] => []
  | c :: rest =>
    let r := trimRightChars rest
    if r.isEmpty && isPySpace c then [] else c :: r

/-- Python str.strip(): remove leading and trailing whitespace. -/
def trimChars (l : List Char) : List Char :=
  trimRightChars (l.dropWhile isPySpace)

/-- Python str.split(sep) for a single character separator. -/
def splitOnChar (c : Char) : List Char → List (List Char)
  | [] => [[]]
  | x :: xs =>
    if x = c then [] :: splitOnChar c xs
    else
      match splitOnChar c xs with
      | r :: rs => (x :: r) :: rs
      | [] => [[x]]

/-- Python line.split(sep, 1) when sep is known to occur: the pieces
before and after the first occurrence. -/
def splitFirstChar (c : Char) : List Char → (List Char × List Char)
  | [] => ([], [])
  | x :: xs =>
    if x = c then ([], xs)
    else
      let p := splitFirstChar c xs
      (x :: p.1, p.2)

/-- Python str.upper() (ASCII case mapping suffices for this grammar). -/
def upperChars (l : List Char) : List Char := l.map Char.toUpper

/-- Paren-depth counter over the first pos characters
(ProcessAlgebraParser._is_in_parentheses, src/models/parser.py:355). -/
def parenDepthBefore (l : List Char) (pos : Nat) : Int :=
  (l.take pos).foldl
    (fun d ch => if ch = '(' then d + 1 else if ch = ')' then d - 1 else d) 0

/-- _is_in_parentheses: the character at pos is inside parentheses. -/
def isInParens (l : List Char) (pos : Nat) : Bool :=
  if pos < l.length then parenDepthBefore l pos > 0 else false

/-- Scan of _remove_outer_parentheses (src/models/parser.py:376-388):
index of the first ')' at which the running open-paren count returns
to zero, if any. -/
def findZeroAux : List Char → Int → Nat → Option Nat
  | [], _, _ => none
  | c :: cs, cnt, i =>
    if c = '(' then findZeroAux cs (cnt + 1) (i + 1)
    else if c = ')' then
      if cnt - 1 = 0 then some i else findZeroAux cs (cnt - 1) (i + 1)
    else findZeroAux cs cnt (i + 1)

/-- ProcessAlgebraParser._remove_outer_parentheses: strip one balanced
outer layer of parentheses (and trim), otherwise return the trimmed
expression unchanged. -/
def removeOuterParens (l : List Char) : List Char :=
  let e := trimChars l
  if e.head? = some '(' ∧ e.getLast? = some ')' then
    match findZeroAux e 0 0 with
    | some i => if i = e.length - 1 then trimChars ((e.drop 1).dropLast) else e
    | none => e
  else e

/-- The condition under which removeOuterParens strips a layer from an
already-trimmed expression. -/
def wrappedParens (l : List Char) : Prop :=
  l.head? = some '(' ∧ l.getLast? = some ')' ∧ findZeroAux l 0 0 = some (l.length - 1)

instance (l : List Char) : Decidable (wrappedParens l) := by
  unfold wrappedParens; infer_instance

/-- ProcessAlgebraParser._split_by_operator: split at every depth-0
occurrence of op; a trailing empty segment is dropped. -/
def splitByOpAux (op : Char) : List Char → Int → List Char → List (List Char)
  | [], _, cur => if cur.isEmpty then [] else [cur.reverse]
  | c :: rest, lvl, cur =>
    if c = '(' then splitByOpAux op rest (lvl + 1) (c :: cur)
    else if c = ')' then splitByOpAux op rest (lvl - 1) (c :: cur)
    else if c = op ∧ lvl = 0 then cur.reverse :: splitByOpAux op rest lvl []
    else splitByOpAux op rest lvl (c :: cur)

def splitByOperator (l : List Char) (op : Char) : List (List Char) :=
  splitByOpAux op l 0 []

/-- ProcessAlgebraParser._split_by_first_operator: split at the first
depth-0 occurrence of op, or return the whole expression. -/
def splitByFirstOpAux (op : Char) : List Char → Int → List Char → Option (List Char × List Char)
  | [], _, _ => none
  | c :: rest, lvl, seen =>
    if c = '(' then splitByFirstOpAux op rest (lvl + 1) (c :: seen)
    else if c = ')' then splitByFirstOpAux op rest (lvl - 1) (c :: seen)
    else if c = op ∧ lvl = 0 then some (seen.reverse, rest)
    else splitByFirstOpAux op rest lvl (c :: seen)

def splitByFirstOperator (l : List Char) (op : Char) : List (List Char) :=
  match splitByFirstOpAux op l 0 [] with
  | some p => [p.1, p.2]
  | none => [l]

/-- A Petri-net place (dict appended to self.places). -/
structure Place where
  id : Nat
  name : List Char
  tokens : Nat
  x : Int
  y : Int
  isProcess : Bool
  isTerminal : Bool
  process : Option (List Char)
deriving DecidableEq, Repr

/-- A Petri-net transition (dict appended to self.transitions). -/
structure Transition where
  id : Nat
  name : List Char
  x : Int
  y : Int
  process : Option (List Char)
  isRecursion : Bool
  isSilent : Bool
deriving DecidableEq, Repr

/-- A Petri-net arc (dict appended to self.arcs). -/
structure Arc where
  sourceId : Nat
  targetId : Nat
  isPlaceToTransition : Bool
deriving DecidableEq, Repr

/-- Positional constructor for Place (id, name, tokens, x, y,
is_process, is_terminal, process). -/
def mkPlace (id : Nat) (name : List Char) (tokens : Nat) (x y : Int)
    (isProcess isTerminal : Bool) (process : Option (List Char)) : Place :=
  { id := id, name := name, tokens := tokens, x := x, y := y,
    isProcess := isProcess, isTerminal := isTerminal, process := process }

/-- Positional constructor for Transition (id, name, x, y, process,
is_recursion, is_silent). -/
def mkTransition (id : Nat) (name : List Char) (x y : Int)
    (process : Option (List Char)) (isRecursion isSilent : Bool) : Transition :=
  { id := id, name := name, x := x, y := y, process := process,
    isRecursion := isRecursion, isSilent := isSilent }

/-- Positional constructor for Arc (source_id, target_id,
is_place_to_transition). -/
def mkArc (sourceId targetId : Nat) (isPlaceToTransition : Bool) : Arc :=
  { sourceId := sourceId, targetId := targetId,
    isPlaceToTransition := isPlaceToTransition }

/-- The mutable fields of a ProcessAlgebraParser instance. -/
structure PState where
  places : List Place
  transitions : List Transition
  arcs : List Arc
  currentId : Nat
  processDefinitions : List (List Char × List Char)
  processPlaces : List (List Char × Nat)
  pendingConnections : List (Nat × List Char)
deriving DecidableEq, Repr

/-- The state right after reset(). -/
def initState : PState :=
  { places := [], transitions := [], arcs := [], currentId := 0,
    processDefinitions := [], processPlaces := [], pendingConnections := [] }

/-- Python dict assignment d[k] = v on an insertion-ordered dict. -/
def updateAssoc {α : Type} : List (List Char × α) → List Char → α → List (List Char × α)
  | [], k, v => [(k, v)]
  | (k', v') :: rest, k, v =>
    if k' = k then (k, v) :: rest else (k', v') :: updateAssoc rest k v

/-- Python dict lookup d.get(k) / k in d. -/
def lookupAssoc {α : Type} : List (List Char × α) → List Char → Option α
  | [], _ => none
  | (k', v') :: rest, k => if k' = k then some v' else lookupAssoc rest k

/-- ProcessAlgebraParser._get_place_by_id restricted to the coordinate
fields it is used for (first matching place, default x=100 y=100). -/
def getPlaceXY (st : PState) (pid : Nat) : Int × Int :=
  match st.places.find? (fun p => p.id = pid) with
  | some p => (p.x, p.y)
  | none => (100, 100)

/-- The atomic-expression tail of _parse_expression
(src/models/parser.py:235-345): standalone STOP, a reference to a
defined process, or a plain action followed by a fresh terminal place.
This part of the Python function makes no recursive calls. -/
def parseAtomic (expr0 : List Char) (sourcePlaceId : Nat)
    (processName : Option (List Char)) (baseY : Int) (st : PState) : PState :=
  let expr1 := trimChars expr0
  if expr1.isEmpty then st
  else
    let expr := removeOuterParens expr1
    if upperChars expr = "STOP".data then
      -- standalone STOP: terminal place plus a silent τ transition to it;
      -- the source stores this place's owner under the misspelled key
      -- pcess, so the process field of the place dict is absent (none)
      let spid := st.currentId
      let sx := (getPlaceXY st sourcePlaceId).1
      let st1 : PState :=
        { st with
          currentId := st.currentId + 1,
          places := st.places ++
            [mkPlace spid "STOP".data 0 (sx + 100) baseY false true none] }
      let tid := st1.currentId
      let sx2 := (getPlaceXY st1 sourcePlaceId).1
      let st2 : PState :=
        { st1 with
          currentId := st1.currentId + 1,
          transitions := st1.transitions ++
            [mkTransition tid ['τ'] (sx2 + 50) baseY none false true] }
      { st2 with
        arcs := st2.arcs ++
          [mkArc sourcePlaceId tid true, mkArc tid spid false] }
    else
      match lookupAssoc st.processPlaces expr with
      | some targetPid =>
        -- reference to a defined process: arrow transition into its entry
        let tid := st.currentId
        let sx := (getPlaceXY st sourcePlaceId).1
        let st1 : PState :=
          { st with
            currentId := st.currentId + 1,
            transitions := st.transitions ++
              [mkTransition tid ('→' :: expr) (sx + 50) baseY none true false] }
        { st1 with
          arcs := st1.arcs ++
            [mkArc sourcePlaceId tid true, mkArc tid targetPid false] }
      | none =>
        -- plain action (or undefined process treated as action) with a
        -- fresh terminal place
        let tid := st.currentId
        let sx := (getPlaceXY st sourcePlaceId).1
        let st1 : PState :=
          { st with
            currentId := st.currentId + 1,
            transitions := st.transitions ++
              [mkTransition tid expr (sx + 100) baseY processName false false],
            arcs := st.arcs ++ [mkArc sourcePlaceId tid true] }
        let pid2 := st1.currentId
        let sx2 := (getPlaceXY st1 sourcePlaceId).1
        { st1 with
          currentId := st1.currentId + 1,
          places := st1.places ++
            [mkPlace pid2
              (if upperChars expr = "STOP".data then "STOP".data else [])
              0 (sx2 + 200) baseY false false processName],
          arcs := st1.arcs ++ [mkArc tid pid2 false] }

/-- The enumerate loop of the choice branch of _parse_expression
(src/models/parser.py:134-139): each branch expands from the same source
place at a vertical offset of i * 80.  The recursive expansion of one
branch is passed in as step. -/
def parseChoicesAux (step : List Char → Int → PState → Except String PState) :
    List (List Char) → Nat → Int → PState → Except String PState
  | [], _, _, st => Except.ok st
  | c :: rest, i, baseY, st =>
    match step (trimChars c) (baseY + (i : Int) * 80) st with
    | Except.error e => Except.error e
    | Except.ok st' => parseChoicesAux step rest (i + 1) baseY st'

/-- ProcessAlgebraParser._parse_expression (src/models/parser.py:127-345),
fuel-indexed.  Fuel exhaustion models the unbounded Python recursion
(RecursionError) on non-shrinking expressions; every call site passes
expression length + 1, which covers every terminating run. -/
def parseExpr : Nat → List Char → Nat → Option (List Char) → Nat → Int →
    PState → Except String PState
  | 0, _, _, _, _, _, _ => Except.error "maximum recursion depth exceeded"
  | Nat.succ f, expr0, sourcePlaceId, processName, depth, baseY, st =>
    let expr := removeOuterParens expr0
    if expr.contains '+' && !(isInParens expr (expr.findIdx (fun c => c == '+'))) then
      parseChoicesAux
        (fun c y st' => parseExpr f c sourcePlaceId processName depth y st')
        (splitByOperator expr '+') 0 baseY st
    else if expr.contains '.' && !(isInParens expr (expr.findIdx (fun c => c == '.'))) then
      match splitByFirstOperator expr '.' with
      | [left, right] =>
        -- sequential composition: transition for the first action
        let first := removeOuterParens (trimChars left)
        let tid := st.currentId
        let sx := (getPlaceXY st sourcePlaceId).1
        let st1 : PState :=
          { st with
            currentId := st.currentId + 1,
            transitions := st.transitions ++
              [mkTransition tid first (sx + 100) baseY processName false false],
            arcs := st.arcs ++ [mkArc sourcePlaceId tid true] }
        let npc := removeOuterParens (trimChars right)
        if upperChars npc = "STOP".data then
          -- lookahead STOP: terminal STOP place consumes the rest
          let spid := st1.currentId
          let sx2 := (getPlaceXY st1 sourcePlaceId).1
          Except.ok { st1 with
            currentId := st1.currentId + 1,
            places := st1.places ++
              [mkPlace spid "STOP".data 0 (sx2 + 200) baseY false true processName],
            arcs := st1.arcs ++ [mkArc tid spid false] }
        else
          match lookupAssoc st1.processPlaces npc with
          | some targetPid =>
            -- lookahead process reference: close the loop into its entry
            Except.ok { st1 with
              arcs := st1.arcs ++ [mkArc tid targetPid false] }
          | none =>
            -- ordinary continuation through a fresh intermediate place
            let npid := st1.currentId
            let sx2 := (getPlaceXY st1 sourcePlaceId).1
            let st2 : PState :=
              { st1 with
                currentId := st1.currentId + 1,
                places := st1.places ++
                  [mkPlace npid [] 0 (sx2 + 200) baseY false false processName],
                arcs := st1.arcs ++ [mkArc tid npid false] }
            parseExpr f right npid processName (depth + 1) baseY st2
      | _ => Except.ok (parseAtomic expr sourcePlaceId processName baseY st)
    else
      Except.ok (parseAtomic expr sourcePlaceId processName baseY st)

/-- First pass of ProcessAlgebraParser.parse (src/models/parser.py:50-73):
register a definition line, creating its entry place with one token. -/
def pass1Line (st : PState) (line : List Char) : PState :=
  if line.contains '=' then
    let p := splitFirstChar '=' line
    let name := trimChars p.1
    let expr := trimChars p.2
    let st1 : PState :=
      { st with
        processDefinitions := updateAssoc st.processDefinitions name expr }
    let pid := st1.currentId
    let st2 : PState :=
      { st1 with
        currentId := st1.currentId + 1,
        places := st1.places ++
          [mkPlace pid name 1 100 (100 + (st1.processPlaces.length : Int) * 150)
            true false (some name)] }
    { st2 with processPlaces := updateAssoc st2.processPlaces name pid }
  else st

/-- Second pass of parse (src/models/parser.py:75-83): expand every
registered definition from its entry place. -/
def pass2 : List (List Char × List Char) → Nat → PState → Except String PState
  | [], _, st => Except.ok st
  | d :: rest, idx, st =>
    match lookupAssoc st.processPlaces d.1 with
    | none => Except.error "KeyError"
    | some pid =>
      match parseExpr (d.2.length + 1) d.2 pid (some d.1) 0 (100 + (idx : Int) * 150) st with
      | Except.error e => Except.error e
      | Except.ok st' => pass2 rest (idx + 1) st'

/-- Pending-recursive-connection loop of parse
(src/models/parser.py:85-115).  Nothing in the source ever appends to
pending_connections, so the loop is dead code, but it is embedded
faithfully. -/
def processPending (st : PState) (conn : Nat × List Char) : PState :=
  match lookupAssoc st.processPlaces conn.2 with
  | some targetPid =>
    let tid := st.currentId
    let sxy := getPlaceXY st conn.1
    { st with
      currentId := st.currentId + 1,
      transitions := st.transitions ++
        [mkTransition tid ('→' :: conn.2) (sxy.1 + 100) sxy.2 none true false],
      arcs := st.arcs ++ [mkArc conn.1 tid true, mkArc tid targetPid false] }
  | none => st

/-- Comment stripping and line collection at the top of parse
(src/models/parser.py:37-46). -/
def stripLines (text : List Char) : List (List Char) :=
  ((splitOnChar '\n' (trimChars text)).map (fun l => l.takeWhile (fun c => c ≠ '#'))).filterMap
    (fun l => let t := trimChars l; if t.isEmpty then none else some t)

/-- ProcessAlgebraParser.parse as an Except computation: ok is the state
at the return True, error is the exception caught by the except block. -/
def parseResultL (text : List Char) : Except String PState :=
  let lines := stripLines text
  let st := lines.foldl pass1Line initState
  match pass2 st.processDefinitions 0 st with
  | Except.error e => Except.error e
  | Except.ok st2 => Except.ok (st2.pendingConnections.foldl processPending st2)

/-- ProcessAlgebraParser.parse(text) -> bool: True on success, False when
an internal exception was caught. -/
def parse (text : String) : Bool :=
  match parseResultL text.data with
  | Except.ok _ => true
  | Except.error _ => false

/-- The parser state produced by a successful parse, if any. -/
def parseOk (text : String) : Option PState :=
  match parseResultL text.data with
  | Except.ok st => some st
  | Except.error _ => none

/-- ProcessAlgebraParser.get_parsing_errors (src/models/parser.py:467-470):
a placeholder that always returns the empty list. -/
def getParsingErrors (_st : PState) : List String := []

/-- ProcessAlgebraParser._build_expression_from_place
(src/models/parser.py:490-494): a placeholder that always returns "". -/
def buildExpressionFromPlace (_st : PState) (_pid : Nat) : List Char := []

/-- ProcessAlgebraParser.export_to_process_algebra
(src/models/parser.py:472-488). -/
def exportToProcessAlgebra (st : PState) : List Char :=
  let result := st.processDefinitions.foldl
    (fun acc d =>
      match lookupAssoc st.processPlaces d.1 with
      | some pid =>
        let expr := buildExpressionFromPlace st pid
        if expr.isEmpty then acc else acc ++ [d.1 ++ " = ".data ++ expr]
      | none => acc) []
  (result.intersperse ['\n']).flatten

/-- Total number of tokens over all places. -/
def totalTokens (st : PState) : Nat := (st.places.map Place.tokens).sum

/-!
petri_to_state_machine (src/models/Petri_Net_methods.py:4-171) for the
default case net_id = None (the parser produced by src/models/parser.py
has no petri_nets attribute, so the net-loading branches are dead).
Python frozensets of place ids are modelled as canonically sorted
duplicate-free lists, so frozenset value-equality becomes list equality.
-/

/-- Insert into a sorted duplicate-free list of ids. -/
def insertSorted (x : Nat) : List Nat → List Nat
  | [] => [x]
  | y :: ys =>
    if x < y then x :: y :: ys
    else if x = y then y :: ys
    else y :: insertSorted x ys

/-- Canonical form of a set of ids. -/
def setOfList (l : List Nat) : List Nat := l.foldl (fun acc x => insertSorted x acc) []

/-- Python set difference m - inputs (the remove loop). -/
def markDiff (m inputs : List Nat) : List Nat := m.filter (fun p => !(inputs.contains p))

/-- Python set update: add all of o to d. -/
def markUnion (o d : List Nat) : List Nat := o.foldl (fun acc x => insertSorted x acc) d

/-- Input-place set of a transition: sources of place-to-transition arcs
targeting it (src/models/Petri_Net_methods.py:98-101). -/
def inputPlaces (arcs : List Arc) (tid : Nat) : List Nat :=
  setOfList (arcs.filterMap (fun a =>
    if a.targetId = tid ∧ a.isPlaceToTransition = true then some a.sourceId else none))

/-- Output-place set of a transition: targets of transition-to-place arcs
leaving it (src/models/Petri_Net_methods.py:113-116). -/
def outputPlaces (arcs : List Arc) (tid : Nat) : List Nat :=
  setOfList (arcs.filterMap (fun a =>
    if a.sourceId = tid ∧ a.isPlaceToTransition = false then some a.targetId else none))

/-- An edge of the produced state machine. -/
structure SMEdge where
  source : Nat
  target : Nat
  name : List Char
deriving DecidableEq, Repr

/-- A state of the produced state machine. -/
structure SMState where
  id : Nat
  name : String
  places : List Nat
  placeNames : List (List Char)
  isInitial : Bool
deriving DecidableEq, Repr

/-- The produced state machine dictionary. -/
structure SM where
  id : String
  name : String
  states : List SMState
  edges : List SMEdge
deriving DecidableEq, Repr

/-- The loop state of the reachability exploration: the marking-to-id map
(insertion ordered, which is also id order), the FIFO worklist, the next
fresh state id and the edge list. -/
structure EState where
  stateToId : List (List Nat × Nat)
  unexplored : List (List Nat)
  nextId : Nat
  edges : List SMEdge
deriving DecidableEq, Repr

/-- Lookup of a marking in the marking-to-id map. -/
def lookupMark : List (List Nat × Nat) → List Nat → Option Nat
  | [], _ => none
  | kv :: rest, m => if kv.1 = m then some kv.2 else lookupMark rest m

/-- One transition considered from the current marking
(src/models/Petri_Net_methods.py:93-136): if every input place is marked,
fire it, register the successor marking if new, and record an edge. -/
def fireTransition (arcs : List Arc) (cid : Nat) (m : List Nat)
    (st : EState) (t : Transition) : EState :=
  let inputs := inputPlaces arcs t.id
  if inputs.all (fun p => m.contains p) then
    let outputs := outputPlaces arcs t.id
    let newM := markUnion outputs (markDiff m inputs)
    match lookupMark st.stateToId newM with
    | some tid =>
      { st with edges := st.edges ++ [{ source := cid, target := tid, name := t.name }] }
    | none =>
      { stateToId := st.stateToId ++ [(newM, st.nextId)],
        unexplored := st.unexplored ++ [newM],
        nextId := st.nextId + 1,
        edges := st.edges ++ [{ source := cid, target := st.nextId, name := t.name }] }
  else st

/-- Process one popped marking: try every transition in order. -/
def exploreStep (transitions : List Transition) (arcs : List Arc)
    (m : List Nat) (st : EState) : EState :=
  let cid := (lookupMark st.stateToId m).getD 0
  transitions.foldl (fireTransition arcs cid m) st

/-- The while-unexplored worklist loop
(src/models/Petri_Net_methods.py:88-136), fuel-indexed: none means the
fuel did not cover the exploration (the Python loop is unbounded). -/
def exploreLoop (transitions : List Transition) (arcs : List Arc) :
    Nat → EState → Option EState
  | 0, st => if st.unexplored.isEmpty then some st else none
  | Nat.succ f, st =>
    match st.unexplored with
    | [] => some st
    | m :: rest =>
      exploreLoop transitions arcs f
        (exploreStep transitions arcs m { st with unexplored := rest })

/-- Initially marked places (src/models/Petri_Net_methods.py:74). -/
def initialMarking (places : List Place) : List Nat :=
  setOfList (places.filterMap (fun p => if p.tokens > 0 then some p.id else none))

/-- Name of a place id in the place_map dict (last duplicate wins, as in
the Python dict comprehension). -/
def placeNameOf (places : List Place) (pid : Nat) : Option (List Char) :=
  places.foldl (fun acc p => if p.id = pid then some p.name else acc) none

/-- Lexicographic comparison of names by character code (Python sorted). -/
def nameLe : List Char → List Char → Bool
  | [], _ => true
  | _ :: _, [] => false
  | a :: as_, b :: bs =>
    if a.val < b.val then true
    else if b.val < a.val then false
    else nameLe as_ bs

def insertName (x : List Char) : List (List Char) → List (List Char)
  | [] => [x]
  | y :: ys => if nameLe x y then x :: y :: ys else y :: insertName x ys

/-- Python sorted() on a list of names (insertion sort, stable). -/
def sortNames (l : List (List Char)) : List (List Char) :=
  l.foldr insertName []

/-- Convert the explored marking map into the states list
(src/models/Petri_Net_methods.py:146-161). -/
def mkStates (places : List Place) (assoc : List (List Nat × Nat)) : List SMState :=
  assoc.map (fun mi =>
    { id := mi.2, name := "State " ++ toString mi.2, places := mi.1,
      placeNames := sortNames (mi.1.filterMap (placeNameOf places)),
      isInitial := mi.2 = 0 })

/-- petri_to_state_machine with net_id = None: build the reachability
state machine of the given net, if the fuel covers the exploration. -/
def petriToStateMachine (fuel : Nat) (places : List Place)
    (transitions : List Transition) (arcs : List Arc) : Option SM :=
  let m0 := initialMarking places
  let st0 : EState :=
    { stateToId := [(m0, 0)], unexplored := [m0], nextId := 1, edges := [] }
  match exploreLoop transitions arcs fuel st0 with
  | none => none
  | some fin =>
    some { id := "current", name := "State Machine",
           states := mkStates places fin.stateToId, edges := fin.edges }

/-- Parse a text and build the reachability machine of the resulting net. -/
def reachOfText (text : String) (fuel : Nat) : Option SM :=
  match parseResultL text.data with
  | Except.ok st => petriToStateMachine fuel st.places st.transitions st.arcs
  | Except.error _ => none

/-! Structural invariants of the net built by parse. -/

/-- The id is the id of some place in the list. -/
def isPlaceId (ps : List Place) (i : Nat) : Prop := ∃ p ∈ ps, p.id = i

/-- The id is the id of some transition in the list. -/
def isTransId (ts : List Transition) (i : Nat) : Prop := ∃ t ∈ ts, t.id = i

/-- Graph alternation for one arc: a place-to-transition arc runs from a
place id to a transition id, and conversely. -/
def arcOk (ps : List Place) (ts : List Transition) (a : Arc) : Prop :=
  (a.isPlaceToTransition = true → isPlaceId ps a.sourceId ∧ isTransId ts a.targetId) ∧
  (a.isPlaceToTransition = false → isTransId ts a.sourceId ∧ isPlaceId ps a.targetId)

/-- The transition id has an outgoing (transition-to-place) arc. -/
def hasOutArc (arcs : List Arc) (tid : Nat) : Prop :=
  ∃ a ∈ arcs, a.sourceId = tid ∧ a.isPlaceToTransition = false

/-- Tokens of a single place: entry places of definitions carry one
token and are flagged is_process, every other place carries zero. -/
def placeTokensOk (p : Place) : Prop :=
  (p.tokens = 1 ∧ p.isProcess = true) ∨ (p.tokens = 0 ∧ p.isProcess = false)

/-- Combined structural invariant of a parser state. -/
def NetInv (st : PState) : Prop :=
  (∀ a ∈ st.arcs, arcOk st.places st.transitions a) ∧
  (∀ t ∈ st.transitions, hasOutArc st.arcs t.id) ∧
  (∀ p ∈ st.places, placeTokensOk p) ∧
  (∀ nv ∈ st.processPlaces, isPlaceId st.places nv.2)

/-- What one _parse_expression call preserves: places and transitions
only grow, the dictionaries and the pending list are untouched, and no
tokens are created. -/
def StMono (st st' : PState) : Prop :=
  (∀ p ∈ st.places, p ∈ st'.places) ∧
  (∀ t ∈ st.transitions, t ∈ st'.transitions) ∧
  st'.processPlaces = st.processPlaces ∧
  st'.processDefinitions = st.processDefinitions ∧
  st'.pendingConnections = st.pendingConnections ∧
  totalTokens st' = totalTokens st

/-- Number of definition lines of an input. -/
def countDefLines (text : List Char) : Nat :=
  (stripLines text).countP (fun l => l.contains '=')

/-! Invariant machinery for the reachability exploration. -/

/-- The marking map is functional: looking a stored marking up yields
its stored id (keys are never duplicated). -/
def mapFunctional (es : EState) : Prop :=
  ∀ mi ∈ es.stateToId, lookupMark es.stateToId mi.1 = some mi.2

/-- The always-enabled transition t has been fired from state id i: an
edge labeled t.name leaves i and its target marking contains every
output place of t. -/
def edgeFor (t : Transition) (arcs : List Arc) (es : EState) (i : Nat) : Prop :=
  ∃ e ∈ es.edges, e.source = i ∧ e.name = t.name ∧
    ∃ mj ∈ es.stateToId, mj.2 = e.target ∧ ∀ p ∈ outputPlaces arcs t.id, p ∈ mj.1

/-- Loop invariant: every discovered marking is either still unexplored
or t has been fired from it. -/
def exploreInv (t : Transition) (arcs : List Arc) (es : EState) : Prop :=
  mapFunctional es ∧
  ∀ mi ∈ es.stateToId, mi.1 ∈ es.unexplored ∨ edgeFor t arcs es mi.2

/-- Monotonicity of one exploration step: the marking map, the edge list
and the worklist only receive appends. -/
def eMono (es es' : EState) : Prop :=
  (∀ mi ∈ es.stateToId, mi ∈ es'.stateToId) ∧
  (∀ e ∈ es.edges, e ∈ es'.edges) ∧
  (∀ m ∈ es.unexplored, m ∈ es'.unexplored)

/-! Concrete nets used as evaluation witnesses. -/

/-- The net parse builds for the input P = a.P. -/
def netPaP : PState :=
  { places := [mkPlace 0 ['P'] 1 100 100 true false (some ['P'])],
    transitions := [mkTransition 1 ['a'] 200 100 (some ['P']) false false],
    arcs := [mkArc 0 1 true, mkArc 1 0 false],
    currentId := 2,
    processDefinitions := [(['P'], ['a', '.', 'P'])],
    processPlaces := [(['P'], 0)],
    pendingConnections := [] }

/-- The net parse builds for the input P = a. -/
def netPa : PState :=
  { places := [mkPlace 0 ['P'] 1 100 100 true false (some ['P']),
               mkPlace 2 [] 0 300 100 false false (some ['P'])],
    transitions := [mkTransition 1 ['a'] 200 100 (some ['P']) false false],
    arcs := [mkArc 0 1 true, mkArc 1 2 false],
    currentId := 3,
    processDefinitions := [(['P'], ['a'])],
    processPlaces := [(['P'], 0)],
    pendingConnections := [] }

/-- A one-transition net with no arcs: the transition has an empty
input-place set. -/
def loneTransition : Transition := mkTransition 0 ['t'] 0 0 none false false

/-- The state machine the builder produces on the lone-transition net. -/
def loneSM : SM :=
  { id := "current", name := "State Machine",
    states := [{ id := 0, name := "State 0", places := [], placeNames := [],
                 isInitial := true }],
    edges := [{ source := 0, target := 0, name := ['t'] }] }

/-- The state machine the builder produces for P = a.b.P + c.STOP. -/
def smChoice : SM :=
  { id := "current", name := "State Machine",
    states := [
      { id := 0, name := "State 0", places := [0], placeNames := [['P']],
        isInitial := true },
      { id := 1, name := "State 1", places := [2], placeNames := [[]],
        isInitial := false },
      { id := 2, name := "State 2", places := [5],
        placeNames := [['S', 'T', 'O', 'P']], isInitial := false }],
    edges := [
      { source := 0, target := 1, name := ['a'] },
      { source := 0, target := 2, name := ['c'] },
      { source := 1, target := 0, name := ['b'] }] }

/-- The state machine the builder produces for P = a.P. -/
def smLoop : SM :=
  { id := "current", name := "State Machine",
    states := [{ id := 0, name := "State 0", places := [0],
                 placeNames := [['P']], isInitial := true }],
    edges := [{ source := 0, target := 0, name := ['a'] }] }

/-! Lemmas about trimming and outer-parenthesis removal. -/

theorem trimRightChars_head? (l : List Char) :
    trimRightChars l = [] ∨ (trimRightChars l).head? = l.head? := by
  cases l with
  | nil => exact Or.inl rfl
  | cons c rest =>
    simp only [trimRightChars]
    by_cases h : (trimRightChars rest).isEmpty && isPySpace c
    · simp [h]
    · simp [h]

theorem trimRightChars_idem (l : List Char) :
    trimRightChars (trimRightChars l) = trimRightChars l := by
  induction l with
  | nil => rfl
  | cons c rest ih =>
    simp only [trimRightChars]
    by_cases h : (trimRightChars rest).isEmpty && isPySpace c
    · simp [h, trimRightChars]
    · simp only [h, if_false]
      simp only [trimRightChars, ih, h, if_false]

theorem dropWhile_head_false {p : Char → Bool} {l : List Char}
    (h : ∀ a, l.head? = some a → p a = false) : List.dropWhile p l = l := by
  cases l with
  | nil => rfl
  | cons a t =>
    have := h a rfl
    simp [List.dropWhile, this]

theorem head?_dropWhile {p : Char → Bool} {l : List Char} {a : Char}
    (h : (List.dropWhile p l).head? = some a) : p a = false := by
  induction l with
  | nil => simp [List.dropWhile] at h
  | cons c t ih =>
    by_cases hc : p c
    · exact ih (by simpa [List.dropWhile, hc] using h)
    · have : c = a := by simpa [List.dropWhile, hc] using h
      subst this
      simpa using hc

theorem trimChars_idem (l : List Char) : trimChars (trimChars l) = trimChars l := by
  unfold trimChars
  have hdw : List.dropWhile isPySpace (trimRightChars (List.dropWhile isPySpace l)) =
      trimRightChars (List.dropWhile isPySpace l) := by
    rcases trimRightChars_head? (List.dropWhile isPySpace l) with h | h
    · rw [h]; rfl
    · refine dropWhile_head_false ?_
      intro a ha
      rw [h] at ha
      exact head?_dropWhile ha
  rw [hdw, trimRightChars_idem]

theorem removeOuterParens_trimmed (l : List Char) :
    trimChars (removeOuterParens l) = removeOuterParens l := by
  unfold removeOuterParens
  by_cases h : (trimChars l).head? = some '(' ∧ (trimChars l).getLast? = some ')'
  · simp only [h, if_pos]
    cases hz : findZeroAux (trimChars l) 0 0 with
    | none => simpa using trimChars_idem l
    | some i =>
      by_cases hi : i = (trimChars l).length - 1
      · simp [hi, trimChars_idem]
      · simp [hi, trimChars_idem l]
  · simp only [h, if_neg, not_false_eq_true]
    simpa using trimChars_idem l

theorem removeOuterParens_fix_of_not_wrapped {y : List Char}
    (ht : trimChars y = y) (h : ¬ wrappedParens y) :
    removeOuterParens y = y := by
  unfold removeOuterParens
  rw [ht]
  unfold wrappedParens at h
  by_cases h1 : y.head? = some '(' ∧ y.getLast? = some ')'
  · simp only [h1, if_pos]
    cases hz : findZeroAux y 0 0 with
    | none => rfl
    | some i =>
      by_cases hi : i = y.length - 1
      · exact absurd ⟨h1.1, h1.2, hi ▸ hz⟩ h
      · simp [hi]
  · simp [h1]

/-- A fold whose step ignores the element leaves the accumulator fixed. -/
theorem foldl_const {α β : Type} (f : α → β → α) (h : ∀ a b, f a b = a) :
    ∀ (l : List β) (a : α), List.foldl f a l = a := by
  intro l
  induction l with
  | nil => intro a; rfl
  | cons b t ih => intro a; rw [List.foldl_cons, h a b]; exact ih a

/-- export_to_process_algebra always produces the empty string, because
_build_expression_from_place is a placeholder returning "". -/
theorem exportToProcessAlgebra_empty (st : PState) :
    exportToProcessAlgebra st = [] := by
  unfold exportToProcessAlgebra
  rw [foldl_const]
  · rfl
  · intro acc d
    cases lookupAssoc st.processPlaces d.1 <;> simp [buildExpressionFromPlace]

/-- C5 counterexample: on the doubly wrapped string ((a)) the function is
not idempotent — the first application yields (a), the second yields a. -/
theorem c5_counterexample :
    ¬ (removeOuterParens (removeOuterParens ("((a))".data)) =
        removeOuterParens ("((a))".data)) := by decide

/-- C5 (corrected): _remove_outer_parentheses strips exactly one balanced
outer layer per application, so it is idempotent exactly on the strings
whose result is not itself wrapped in matching outer parentheses. -/
theorem c5_idempotent_unless_wrapped (x : List Char)
    (h : ¬ wrappedParens (removeOuterParens x)) :
    removeOuterParens (removeOuterParens x) = removeOuterParens x :=
  removeOuterParens_fix_of_not_wrapped (removeOuterParens_trimmed x) h

/-- C5 witness: the hypothesis and conclusion of the corrected statement
evaluated on the concrete input (a). -/
theorem c5_witness :
    ¬ wrappedParens (removeOuterParens ("(a)".data)) ∧
      removeOuterParens (removeOuterParens ("(a)".data)) =
        removeOuterParens ("(a)".data) :=
  ⟨by decide, c5_idempotent_unless_wrapped ("(a)".data) (by decide)⟩

/-- C7: parse always returns a boolean; every internal error of the
parsing computation is caught and mapped to False, and every successful
run returns True — nothing else can escape to the caller. -/
theorem c7_parse_total_boolean (text : String) :
    (∃ st, parseResultL text.data = Except.ok st ∧ parse text = true) ∨
    (∃ e, parseResultL text.data = Except.error e ∧ parse text = false) := by
  unfold parse
  cases h : parseResultL text.data with
  | ok st => exact Or.inl ⟨st, rfl, rfl⟩
  | error e => exact Or.inr ⟨e, rfl, rfl⟩

/-- C8 counterexample: parse fails on the input P = )+( (the expression
loops until the recursion limit), yet get_parsing_errors returns the
empty list, not a non-empty one. -/
theorem c8_counterexample :
    parse "P = )+(" = false ∧ getParsingErrors initState = ([] : List String) :=
  ⟨by rfl, rfl⟩

/-- C8 (corrected): after a failed parse, get_parsing_errors returns the
empty list — the source method is a placeholder that always returns []
and no fallback message exists in this code. -/
theorem c8_errors_always_empty (text : String) (st : PState)
    (_h : parse text = false) : getParsingErrors st = ([] : List String) := rfl

/-- C8 witness: the corrected statement evaluated at the concrete failing
input P = )+( and the net of P = a.P. -/
theorem c8_witness :
    parse "P = )+(" = false ∧ getParsingErrors netPaP = ([] : List String) :=
  ⟨by rfl, c8_errors_always_empty "P = )+(" netPaP (by rfl)⟩

/-- C9: whenever parse succeeds, re-parsing the exported process-algebra
text succeeds as well (the placeholder export always emits the empty
string, and parse accepts the empty string). -/
theorem c9_export_reparses (text : String) (st : PState)
    (_h : parseResultL text.data = Except.ok st) :
    parse (String.mk (exportToProcessAlgebra st)) = true := by
  rw [exportToProcessAlgebra_empty st]
  rfl

/-- C9 witness: the hypothesis and conclusion evaluated on the empty
input, whose successful parse yields the freshly reset state. -/
theorem c9_witness :
    parseResultL "".data = Except.ok initState ∧
      parse (String.mk (exportToProcessAlgebra initState)) = true :=
  ⟨by rfl, c9_export_reparses "" initState (by rfl)⟩

/-- C2 counterexample: on P = a.b.P + c.STOP the reachability builder
produces three states, not the two the claim asserts, because the
intermediate place between a and b forms a distinct marking. -/
theorem c2_counterexample :
    (reachOfText "P = a.b.P + c.STOP" 10).map (fun sm => sm.states.length) =
      some 3 ∧ (3 : Nat) ≠ 2 :=
  ⟨by rfl, by decide⟩

/-- C2 (corrected): parse of P = a.b.P + c.STOP followed by the
reachability builder terminates and produces exactly the machine with 3
states — entry marking, intermediate marking, STOP marking — and 3 edges
a : S0 → S1, c : S0 → S2 and b : S1 → S0. -/
theorem c2_reachability_graph :
    reachOfText "P = a.b.P + c.STOP" 10 = some smChoice := by rfl

/-- C3: for P = a.P, parse succeeds and the reachability builder
terminates with exactly one state (the marking never changes) carrying a
single self-loop edge labeled a. -/
theorem c3_self_loop :
    parse "P = a.P" = true ∧ reachOfText "P = a.P" 5 = some smLoop :=
  ⟨by rfl, by rfl⟩

/-- C1 counterexample: for the two-line input P = a.P and Q = b.P, both
entry places carry one token, so the total is 2, not the 1 token (Q
only) the claim asserts. -/
theorem c1_counterexample :
    (parseOk "P = a.P\nQ = b.P").map totalTokens = some 2 ∧
      (parseOk "P = a.P\nQ = b.P").map
        (fun st => st.places.map (fun p => (p.name, p.tokens))) =
        some [(['P'], 1), (['Q'], 1)] ∧
      (2 : Nat) ≠ 1 :=
  ⟨by rfl, by rfl, by decide⟩

/-- C6 counterexample: for P = a, whose only term is neither STOP nor a
process name, the parser does create a terminal place (two places in
total) and connects the action transition to it — the transition is not
left dangling. -/
theorem c6_counterexample :
    (parseOk "P = a").map (fun st => st.places.length) = some 2 ∧
      (parseOk "P = a").map (fun st => st.arcs.contains (mkArc 1 2 false)) =
        some true :=
  ⟨by rfl, by rfl⟩

/-! Preservation of the structural invariant through the net builder. -/

theorem isPlaceId_mono {ps ps' : List Place} (h : ∀ p ∈ ps, p ∈ ps') {i : Nat}
    (hi : isPlaceId ps i) : isPlaceId ps' i := by
  obtain ⟨p, hp, he⟩ := hi
  exact ⟨p, h p hp, he⟩

theorem isTransId_mono {ts ts' : List Transition} (h : ∀ t ∈ ts, t ∈ ts') {i : Nat}
    (hi : isTransId ts i) : isTransId ts' i := by
  obtain ⟨t, hp, he⟩ := hi
  exact ⟨t, h t hp, he⟩

theorem arcOk_mono {ps ps' : List Place} {ts ts' : List Transition}
    (hp : ∀ p ∈ ps, p ∈ ps') (ht : ∀ t ∈ ts, t ∈ ts') {a : Arc}
    (h : arcOk ps ts a) : arcOk ps' ts' a :=
  ⟨fun hb => ⟨isPlaceId_mono hp (h.1 hb).1, isTransId_mono ht (h.1 hb).2⟩,
   fun hb => ⟨isTransId_mono ht (h.2 hb).1, isPlaceId_mono hp (h.2 hb).2⟩⟩

theorem hasOutArc_mono {arcs arcs' : List Arc} (h : ∀ a ∈ arcs, a ∈ arcs')
    {tid : Nat} (ho : hasOutArc arcs tid) : hasOutArc arcs' tid := by
  obtain ⟨a, ha, he⟩ := ho
  exact ⟨a, h a ha, he⟩

theorem arcOk_p2t {ps : List Place} {ts : List Transition} {s t : Nat}
    (hs : isPlaceId ps s) (ht : isTransId ts t) : arcOk ps ts (mkArc s t true) :=
  ⟨fun _ => ⟨hs, ht⟩, fun h => by simp [mkArc] at h⟩

theorem arcOk_t2p {ps : List Place} {ts : List Transition} {s t : Nat}
    (hs : isTransId ts s) (ht : isPlaceId ps t) : arcOk ps ts (mkArc s t false) :=
  ⟨fun h => by simp [mkArc] at h, fun _ => ⟨hs, ht⟩⟩

theorem stMono_refl (st : PState) : StMono st st :=
  ⟨fun _ h => h, fun _ h => h, rfl, rfl, rfl, rfl⟩

theorem stMono_trans {s1 s2 s3 : PState} (h1 : StMono s1 s2) (h2 : StMono s2 s3) :
    StMono s1 s3 :=
  ⟨fun p hp => h2.1 p (h1.1 p hp), fun t ht => h2.2.1 t (h1.2.1 t ht),
   h2.2.2.1.trans h1.2.2.1, h2.2.2.2.1.trans h1.2.2.2.1,
   h2.2.2.2.2.1.trans h1.2.2.2.2.1, h2.2.2.2.2.2.trans h1.2.2.2.2.2⟩

theorem mem_append_l {α : Type} {l l2 : List α} {x : α} (h : x ∈ l) : x ∈ l ++ l2 :=
  List.mem_append_left _ h

theorem totalTokens_places_append (st : PState) (cid : Nat) (ps2 : List Place)
    (ts2 : List Transition) (as2 : List Arc) :
    totalTokens
      { st with
        currentId := cid,
        places := st.places ++ ps2,
        transitions := ts2,
        arcs := as2 } =
      totalTokens st + (ps2.map Place.tokens).sum := by
  simp [totalTokens]

theorem lookupAssoc_mem {α : Type} {m : List (List Char × α)} {k : List Char} {v : α}
    (h : lookupAssoc m k = some v) : (k, v) ∈ m := by
  induction m with
  | nil => simp [lookupAssoc] at h
  | cons kv rest ih =>
    by_cases hk : kv.1 = k
    · simp only [lookupAssoc, hk, if_pos, Option.some.injEq] at h
      cases kv
      simp_all
    · simp only [lookupAssoc, hk, if_neg, not_false_eq_true] at h
      exact List.mem_cons_of_mem _ (ih h)

theorem parseAtomic_inv (expr : List Char) (src : Nat) (pn : Option (List Char))
    (y0 : Int) (st : PState) (hsrc : isPlaceId st.places src) (hinv : NetInv st) :
    NetInv (parseAtomic expr src pn y0 st) ∧ StMono st (parseAtomic expr src pn y0 st) := by
  obtain ⟨hA, hB, hC, hD⟩ := hinv
  unfold parseAtomic
  by_cases h1 : (trimChars expr).isEmpty
  · simp only [h1, if_pos]
    exact ⟨⟨hA, hB, hC, hD⟩, stMono_refl st⟩
  · simp only [h1, if_neg, Bool.not_eq_true]
    by_cases h2 : upperChars (removeOuterParens (trimChars expr)) = "STOP".data
    · -- standalone STOP branch
      simp only [h2, if_pos]
      refine ⟨⟨?_, ?_, ?_, ?_⟩, fun p hp => mem_append_l hp, fun t ht => mem_append_l ht,
        rfl, rfl, rfl, ?_⟩
      · intro a ha
        simp only [List.mem_append, List.mem_cons, List.not_mem_nil, or_false] at ha
        rcases ha with ha | ha | ha
        · exact arcOk_mono (fun p hp => mem_append_l hp) (fun t ht => mem_append_l ht) (hA a ha)
        · subst ha
          exact arcOk_p2t (isPlaceId_mono (fun p hp => mem_append_l hp) hsrc)
            ⟨_, List.mem_append_right _ (List.mem_singleton_self _), rfl⟩
        · subst ha
          exact arcOk_t2p ⟨_, List.mem_append_right _ (List.mem_singleton_self _), rfl⟩
            ⟨_, List.mem_append_right _ (List.mem_singleton_self _), rfl⟩
      · intro t ht
        simp only [List.mem_append, List.mem_cons, List.not_mem_nil, or_false] at ht
        rcases ht with ht | ht
        · exact hasOutArc_mono (fun a ha => mem_append_l ha) (hB t ht)
        · subst ht
          refine ⟨mkArc (st.currentId + 1) st.currentId false, ?_, rfl, rfl⟩
          simp
      · intro p hp
        simp only [List.mem_append, List.mem_cons, List.not_mem_nil, or_false] at hp
        rcases hp with hp | hp
        · exact hC p hp
        · subst hp
          exact Or.inr ⟨rfl, rfl⟩
      · intro nv hnv
        exact isPlaceId_mono (fun p hp => mem_append_l hp) (hD nv hnv)
      · rw [totalTokens_places_append]
        simp [mkPlace]
    · simp only [h2, if_neg, not_false_eq_true]
      cases hlk : lookupAssoc st.processPlaces (removeOuterParens (trimChars expr)) with
      | some targetPid =>
        -- process-reference branch
        have htgt : isPlaceId st.places targetPid := hD _ (lookupAssoc_mem hlk)
        refine ⟨⟨?_, ?_, hC, hD⟩, fun p hp => hp, fun t ht => mem_append_l ht,
          rfl, rfl, rfl, by simp [totalTokens]⟩
        · intro a ha
          simp only [List.mem_append, List.mem_cons, List.not_mem_nil, or_false] at ha
          rcases ha with ha | ha | ha
          · exact arcOk_mono (fun p hp => hp) (fun t ht => mem_append_l ht) (hA a ha)
          · subst ha
            exact arcOk_p2t hsrc ⟨_, List.mem_append_right _ (List.mem_singleton_self _), rfl⟩
          · subst ha
            exact arcOk_t2p ⟨_, List.mem_append_right _ (List.mem_singleton_self _), rfl⟩ htgt
        · intro t ht
          simp only [List.mem_append, List.mem_cons, List.not_mem_nil, or_false] at ht
          rcases ht with ht | ht
          · exact hasOutArc_mono (fun a ha => mem_append_l ha) (hB t ht)
          · subst ht
            refine ⟨mkArc st.currentId targetPid false, ?_, rfl, rfl⟩
            simp
      | none =>
        -- plain-action branch with a fresh terminal place
        refine ⟨⟨?_, ?_, ?_, ?_⟩, fun p hp => mem_append_l hp, fun t ht => mem_append_l ht,
          rfl, rfl, rfl, ?_⟩
        · intro a ha
          simp only [List.append_assoc, List.cons_append, List.nil_append,
            List.mem_append, List.mem_cons, List.not_mem_nil, or_false] at ha
          rcases ha with ha | ha | ha
          · exact arcOk_mono (fun p hp => mem_append_l hp) (fun t ht => mem_append_l ht) (hA a ha)
          · subst ha
            exact arcOk_p2t (isPlaceId_mono (fun p hp => mem_append_l hp) hsrc)
              ⟨_, List.mem_append_right _ (List.mem_singleton_self _), rfl⟩
          · subst ha
            exact arcOk_t2p ⟨_, List.mem_append_right _ (List.mem_singleton_self _), rfl⟩
              ⟨_, List.mem_append_right _ (List.mem_singleton_self _), rfl⟩
        · intro t ht
          simp only [List.mem_append, List.mem_cons, List.not_mem_nil, or_false] at ht
          rcases ht with ht | ht
          · refine hasOutArc_mono (fun a ha => ?_) (hB t ht)
            simp [ha]
          · subst ht
            refine ⟨mkArc st.currentId (st.currentId + 1) false, ?_, rfl, rfl⟩
            simp
        · intro p hp
          simp only [List.mem_append, List.mem_cons, List.not_mem_nil, or_false] at hp
          rcases hp with hp | hp
          · exact hC p hp
          · subst hp
            exact Or.inr ⟨rfl, rfl⟩
        · intro nv hnv
          exact isPlaceId_mono (fun p hp => mem_append_l hp) (hD nv hnv)
        · rw [totalTokens_places_append]
          simp [mkPlace]

theorem parseChoicesAux_inv (src : Nat)
    (step : List Char → Int → PState → Except String PState)
    (hstep : ∀ c y s s', isPlaceId s.places src → NetInv s →
      step c y s = Except.ok s' → NetInv s' ∧ StMono s s') :
    ∀ (cs : List (List Char)) (i : Nat) (y0 : Int) (s s' : PState),
      isPlaceId s.places src → NetInv s →
      parseChoicesAux step cs i y0 s = Except.ok s' →
      NetInv s' ∧ StMono s s' := by
  intro cs
  induction cs with
  | nil =>
    intro i y0 s s' hsrc hinv h
    simp only [parseChoicesAux, Except.ok.injEq] at h
    subst h
    exact ⟨hinv, stMono_refl s⟩
  | cons c rest ih =>
    intro i y0 s s' hsrc hinv h
    simp only [parseChoicesAux] at h
    cases hstep0 : step (trimChars c) (y0 + (i : Int) * 80) s with
    | error e => rw [hstep0] at h; cases h
    | ok s1 =>
      rw [hstep0] at h
      obtain ⟨hinv1, hm1⟩ := hstep _ _ _ _ hsrc hinv hstep0
      obtain ⟨hinv2, hm2⟩ := ih (i + 1) y0 s1 s' (isPlaceId_mono hm1.1 hsrc) hinv1 h
      exact ⟨hinv2, stMono_trans hm1 hm2⟩

theorem parseExpr_inv :
    ∀ (fuel : Nat) (e : List Char) (src : Nat) (pn : Option (List Char))
      (d : Nat) (y0 : Int) (s s' : PState),
      isPlaceId s.places src → NetInv s →
      parseExpr fuel e src pn d y0 s = Except.ok s' →
      NetInv s' ∧ StMono s s' := by
  intro fuel
  induction fuel with
  | zero =>
    intro e src pn d y0 s s' _ _ h
    simp [parseExpr] at h
  | succ f ih =>
    intro e src pn d y0 s s' hsrc hinv h
    obtain ⟨hA, hB, hC, hD⟩ := hinv
    simp only [parseExpr] at h
    by_cases hc1 : ((removeOuterParens e).contains '+' &&
        !(isInParens (removeOuterParens e)
          ((removeOuterParens e).findIdx (fun c => c == '+')))) = true
    · rw [if_pos hc1] at h
      exact parseChoicesAux_inv src _
        (fun c y s1 s1' hs hi hok => ih c src pn d y s1 s1' hs hi hok)
        _ 0 y0 s s' hsrc ⟨hA, hB, hC, hD⟩ h
    · rw [if_neg hc1] at h
      by_cases hc2 : ((removeOuterParens e).contains '.' &&
          !(isInParens (removeOuterParens e)
            ((removeOuterParens e).findIdx (fun c => c == '.')))) = true
      · rw [if_pos hc2] at h
        rcases hsp : splitByFirstOperator (removeOuterParens e) '.' with _ | ⟨left, tail⟩
        · rw [hsp] at h
          dsimp only at h
          simp only [Except.ok.injEq] at h
          subst h
          exact parseAtomic_inv _ src pn y0 s hsrc ⟨hA, hB, hC, hD⟩
        · rcases tail with _ | ⟨right, tail2⟩
          · rw [hsp] at h
            dsimp only at h
            simp only [Except.ok.injEq] at h
            subst h
            exact parseAtomic_inv _ src pn y0 s hsrc ⟨hA, hB, hC, hD⟩
          · rcases tail2 with _ | ⟨z, tail3⟩
            · -- the genuine two-part sequential case
              rw [hsp] at h
              dsimp only at h
              by_cases hstop : upperChars (removeOuterParens (trimChars right)) =
                  ['S', 'T', 'O', 'P']
              · rw [if_pos hstop] at h
                simp only [Except.ok.injEq] at h
                subst h
                refine ⟨⟨?_, ?_, ?_, ?_⟩, fun p hp => mem_append_l hp,
                  fun t ht => mem_append_l ht, rfl, rfl, rfl, ?_⟩
                · intro a ha
                  simp only [List.append_assoc, List.cons_append, List.nil_append,
                    List.mem_append, List.mem_cons, List.not_mem_nil, or_false] at ha
                  rcases ha with ha | ha | ha
                  · exact arcOk_mono (fun p hp => mem_append_l hp)
                      (fun t ht => mem_append_l ht) (hA a ha)
                  · subst ha
                    exact arcOk_p2t (isPlaceId_mono (fun p hp => mem_append_l hp) hsrc)
                      ⟨_, List.mem_append_right _ (List.mem_singleton_self _), rfl⟩
                  · subst ha
                    exact arcOk_t2p
                      ⟨_, List.mem_append_right _ (List.mem_singleton_self _), rfl⟩
                      ⟨_, List.mem_append_right _ (List.mem_singleton_self _), rfl⟩
                · intro t ht
                  simp only [List.mem_append, List.mem_cons, List.not_mem_nil, or_false] at ht
                  rcases ht with ht | ht
                  · refine hasOutArc_mono (fun a ha => ?_) (hB t ht)
                    simp [ha]
                  · subst ht
                    refine ⟨mkArc s.currentId (s.currentId + 1) false, ?_, rfl, rfl⟩
                    simp
                · intro p hp
                  simp only [List.mem_append, List.mem_cons, List.not_mem_nil, or_false] at hp
                  rcases hp with hp | hp
                  · exact hC p hp
                  · subst hp
                    exact Or.inr ⟨rfl, rfl⟩
                · intro nv hnv
                  exact isPlaceId_mono (fun p hp => mem_append_l hp) (hD nv hnv)
                · rw [totalTokens_places_append]
                  simp [mkPlace]
              · rw [if_neg hstop] at h
                cases hlk : lookupAssoc s.processPlaces (removeOuterParens (trimChars right)) with
                | some targetPid =>
                  rw [hlk] at h
                  simp only [Except.ok.injEq] at h
                  subst h
                  have htgt : isPlaceId s.places targetPid := hD _ (lookupAssoc_mem hlk)
                  refine ⟨⟨?_, ?_, hC, hD⟩, fun p hp => hp, fun t ht => mem_append_l ht,
                    rfl, rfl, rfl, by simp [totalTokens]⟩
                  · intro a ha
                    simp only [List.append_assoc, List.cons_append, List.nil_append,
                      List.mem_append, List.mem_cons, List.not_mem_nil, or_false] at ha
                    rcases ha with ha | ha | ha
                    · exact arcOk_mono (fun p hp => hp) (fun t ht => mem_append_l ht) (hA a ha)
                    · subst ha
                      exact arcOk_p2t hsrc
                        ⟨_, List.mem_append_right _ (List.mem_singleton_self _), rfl⟩
                    · subst ha
                      exact arcOk_t2p
                        ⟨_, List.mem_append_right _ (List.mem_singleton_self _), rfl⟩ htgt
                  · intro t ht
                    simp only [List.mem_append, List.mem_cons, List.not_mem_nil, or_false] at ht
                    rcases ht with ht | ht
                    · refine hasOutArc_mono (fun a ha => ?_) (hB t ht)
                      simp [ha]
                    · subst ht
                      refine ⟨mkArc s.currentId targetPid false, ?_, rfl, rfl⟩
                      simp
                | none =>
                  rw [hlk] at h
                  -- continuation through the fresh intermediate place npid
                  have hnp : NetInv
                      { s with
                        currentId := s.currentId + 1 + 1,
                        places := s.places ++
                          [mkPlace (s.currentId + 1) [] 0
                            ((getPlaceXY s src).1 + 200) y0 false false pn],
                        transitions := s.transitions ++
                          [mkTransition s.currentId
                            (removeOuterParens (trimChars left))
                            ((getPlaceXY s src).1 + 100) y0 pn false false],
                        arcs := (s.arcs ++ [mkArc src s.currentId true]) ++
                          [mkArc s.currentId (s.currentId + 1) false] } := by
                    refine ⟨?_, ?_, ?_, ?_⟩
                    · intro a ha
                      simp only [List.append_assoc, List.cons_append, List.nil_append,
                        List.mem_append, List.mem_cons, List.not_mem_nil, or_false] at ha
                      rcases ha with ha | ha | ha
                      · exact arcOk_mono (fun p hp => mem_append_l hp)
                          (fun t ht => mem_append_l ht) (hA a ha)
                      · subst ha
                        exact arcOk_p2t (isPlaceId_mono (fun p hp => mem_append_l hp) hsrc)
                          ⟨_, List.mem_append_right _ (List.mem_singleton_self _), rfl⟩
                      · subst ha
                        exact arcOk_t2p
                          ⟨_, List.mem_append_right _ (List.mem_singleton_self _), rfl⟩
                          ⟨_, List.mem_append_right _ (List.mem_singleton_self _), rfl⟩
                    · intro t ht
                      simp only [List.mem_append, List.mem_cons, List.not_mem_nil,
                        or_false] at ht
                      rcases ht with ht | ht
                      · refine hasOutArc_mono (fun a ha => ?_) (hB t ht)
                        simp [ha]
                      · subst ht
                        refine ⟨mkArc s.currentId (s.currentId + 1) false, ?_, rfl, rfl⟩
                        simp
                    · intro p hp
                      simp only [List.mem_append, List.mem_cons, List.not_mem_nil,
                        or_false] at hp
                      rcases hp with hp | hp
                      · exact hC p hp
                      · subst hp
                        exact Or.inr ⟨rfl, rfl⟩
                    · intro nv hnv
                      exact isPlaceId_mono (fun p hp => mem_append_l hp) (hD nv hnv)
                  have hsrc2 : isPlaceId
                      (s.places ++
                        [mkPlace (s.currentId + 1) [] 0
                          ((getPlaceXY s src).1 + 200) y0 false false pn])
                      (s.currentId + 1) :=
                    ⟨_, List.mem_append_right _ (List.mem_singleton_self _), rfl⟩
                  obtain ⟨hinv3, hm3⟩ := ih right (s.currentId + 1) pn (d + 1) y0 _ s' hsrc2 hnp h
                  refine ⟨hinv3, stMono_trans ?_ hm3⟩
                  refine ⟨fun p hp => mem_append_l hp, fun t ht => mem_append_l ht,
                    rfl, rfl, rfl, ?_⟩
                  rw [totalTokens_places_append]
                  simp [mkPlace]
            · -- three or more parts never arise, but the match sends them to the atomic tail
              rw [hsp] at h
              dsimp only at h
              simp only [Except.ok.injEq] at h
              subst h
              exact parseAtomic_inv _ src pn y0 s hsrc ⟨hA, hB, hC, hD⟩
      · rw [if_neg hc2] at h
        simp only [Except.ok.injEq] at h
        subst h
        exact parseAtomic_inv _ src pn y0 s hsrc ⟨hA, hB, hC, hD⟩

theorem updateAssoc_mem {α : Type} {m : List (List Char × α)} {k : List Char}
    {v : α} {nv : List Char × α} (h : nv ∈ updateAssoc m k v) :
    nv ∈ m ∨ nv = (k, v) := by
  induction m with
  | nil =>
    simp only [updateAssoc, List.mem_singleton] at h
    exact Or.inr h
  | cons kv rest ih =>
    by_cases hk : kv.1 = k
    · simp only [updateAssoc, hk, if_pos, List.mem_cons] at h
      rcases h with h | h
      · exact Or.inr h
      · exact Or.inl (List.mem_cons_of_mem _ h)
    · simp only [updateAssoc, hk, if_neg, not_false_eq_true, List.mem_cons] at h
      rcases h with h | h
      · exact Or.inl (h ▸ List.mem_cons_self _ _)
      · rcases ih h with h2 | h2
        · exact Or.inl (List.mem_cons_of_mem _ h2)
        · exact Or.inr h2

theorem pass1Line_inv (st : PState) (line : List Char) (hinv : NetInv st) :
    NetInv (pass1Line st line) ∧
      (pass1Line st line).pendingConnections = st.pendingConnections ∧
      totalTokens (pass1Line st line) =
        totalTokens st + (if line.contains '=' then 1 else 0) := by
  obtain ⟨hA, hB, hC, hD⟩ := hinv
  unfold pass1Line
  by_cases heq : line.contains '='
  · rw [if_pos heq, if_pos heq]
    refine ⟨⟨?_, ?_, ?_, ?_⟩, rfl, ?_⟩
    · intro a ha
      exact arcOk_mono (fun p hp => mem_append_l hp) (fun t ht => ht) (hA a ha)
    · intro t ht
      exact hB t ht
    · intro p hp
      simp only [List.mem_append, List.mem_cons, List.not_mem_nil, or_false] at hp
      rcases hp with hp | hp
      · exact hC p hp
      · subst hp
        exact Or.inl ⟨rfl, rfl⟩
    · intro nv hnv
      rcases updateAssoc_mem hnv with h2 | h2
      · exact isPlaceId_mono (fun p hp => mem_append_l hp) (hD nv h2)
      · subst h2
        exact ⟨_, List.mem_append_right _ (List.mem_singleton_self _), rfl⟩
    · simp [totalTokens, mkPlace]
  · rw [if_neg heq, if_neg heq]
    exact ⟨⟨hA, hB, hC, hD⟩, rfl, by simp⟩

theorem pass1_fold_inv :
    ∀ (lines : List (List Char)) (st : PState), NetInv st →
      NetInv (lines.foldl pass1Line st) ∧
        (lines.foldl pass1Line st).pendingConnections = st.pendingConnections ∧
        totalTokens (lines.foldl pass1Line st) =
          totalTokens st + lines.countP (fun l => l.contains '=') := by
  intro lines
  induction lines with
  | nil => intro st hinv; exact ⟨hinv, rfl, by simp⟩
  | cons line rest ih =>
    intro st hinv
    obtain ⟨h1, h2, h3⟩ := pass1Line_inv st line hinv
    obtain ⟨h4, h5, h6⟩ := ih (pass1Line st line) h1
    refine ⟨h4, h5.trans h2, ?_⟩
    rw [List.foldl_cons, h6, h3, List.countP_cons]
    by_cases hl : line.contains '='
    · simp only [hl, if_pos]
      omega
    · simp only [hl, if_neg, not_false_eq_true, Bool.false_eq_true]
      omega

theorem pass2_inv :
    ∀ (defs : List (List Char × List Char)) (i : Nat) (st st' : PState),
      NetInv st → pass2 defs i st = Except.ok st' →
      NetInv st' ∧ st'.pendingConnections = st.pendingConnections ∧
        totalTokens st' = totalTokens st := by
  intro defs
  induction defs with
  | nil =>
    intro i st st' hinv h
    simp only [pass2, Except.ok.injEq] at h
    subst h
    exact ⟨hinv, rfl, rfl⟩
  | cons dd rest ih =>
    intro i st st' hinv h
    simp only [pass2] at h
    cases hlk : lookupAssoc st.processPlaces dd.1 with
    | none => rw [hlk] at h; cases h
    | some pid =>
      rw [hlk] at h
      dsimp only at h
      have hsrc : isPlaceId st.places pid := hinv.2.2.2 _ (lookupAssoc_mem hlk)
      cases hpe : parseExpr (dd.2.length + 1) dd.2 pid (some dd.1) 0
          (100 + (i : Int) * 150) st with
      | error e => rw [hpe] at h; cases h
      | ok st1 =>
        rw [hpe] at h
        obtain ⟨hinv1, hm1⟩ := parseExpr_inv _ _ _ _ _ _ _ _ hsrc hinv hpe
        obtain ⟨hinv2, hp2, ht2⟩ := ih (i + 1) st1 st' hinv1 h
        exact ⟨hinv2, hp2.trans hm1.2.2.2.2.1, ht2.trans hm1.2.2.2.2.2⟩

theorem initState_inv : NetInv initState := by
  refine ⟨?_, ?_, ?_, ?_⟩ <;> intro x hx <;> simp [initState] at hx

/-- Combined parse-level invariant: every successful parse yields a net
satisfying the structural invariant, with one token per definition line. -/
theorem parseResultL_inv (text : List Char) (st : PState)
    (h : parseResultL text = Except.ok st) :
    NetInv st ∧ totalTokens st = countDefLines text := by
  unfold parseResultL at h
  dsimp only at h
  cases hp2 : pass2 ((stripLines text).foldl pass1Line initState).processDefinitions 0
      ((stripLines text).foldl pass1Line initState) with
  | error e => rw [hp2] at h; cases h
  | ok st2 =>
    rw [hp2] at h
    simp only [Except.ok.injEq] at h
    obtain ⟨hinv1, hpend1, htok1⟩ :=
      pass1_fold_inv (stripLines text) initState initState_inv
    obtain ⟨hinv2, hpend2, htok2⟩ := pass2_inv _ 0 _ st2 hinv1 hp2
    have hpend : st2.pendingConnections = [] := by
      rw [hpend2, hpend1]
      rfl
    rw [hpend] at h
    simp only [List.foldl_nil] at h
    subst h
    refine ⟨hinv2, ?_⟩
    rw [htok2, htok1]
    simp [totalTokens, initState, countDefLines]

/-- C1 (corrected): after every successful parse, exactly the entry
places created in the first pass carry one token (flagged is_process)
and every other place carries zero, so the total token count equals the
number of definition lines — one per line containing '=', not one per
main process. -/
theorem c1_tokens_per_definition (text : String) (st : PState)
    (h : parseResultL text.data = Except.ok st) :
    totalTokens st = countDefLines text.data ∧
      ∀ p ∈ st.places,
        (p.tokens = 1 ∧ p.isProcess = true) ∨ (p.tokens = 0 ∧ p.isProcess = false) := by
  obtain ⟨hinv, htok⟩ := parseResultL_inv text.data st h
  exact ⟨htok, hinv.2.2.1⟩

/-- C1 witness: the corrected statement evaluated on P = a.P, where the
single definition line yields total token count 1. -/
theorem c1_witness :
    parseResultL "P = a.P".data = Except.ok netPaP ∧
      (totalTokens netPaP = countDefLines "P = a.P".data ∧
        ∀ p ∈ netPaP.places,
          (p.tokens = 1 ∧ p.isProcess = true) ∨ (p.tokens = 0 ∧ p.isProcess = false)) :=
  ⟨by rfl, c1_tokens_per_definition "P = a.P" netPaP (by rfl)⟩

/-- C4: after every successful parse, every place-to-transition arc runs
from the id of a place to the id of a transition, and every
transition-to-place arc runs from the id of a transition to the id of a
place. -/
theorem c4_graph_alternation (text : String) (st : PState)
    (h : parseResultL text.data = Except.ok st) :
    ∀ a ∈ st.arcs, arcOk st.places st.transitions a :=
  (parseResultL_inv text.data st h).1.1

/-- C4 witness: the alternation invariant evaluated on the net of
P = a.P. -/
theorem c4_witness :
    parseResultL "P = a.P".data = Except.ok netPaP ∧
      ∀ a ∈ netPaP.arcs, arcOk netPaP.places netPaP.transitions a :=
  ⟨by rfl, c4_graph_alternation "P = a.P" netPaP (by rfl)⟩

/-- C6 (corrected): after every successful parse, every transition has
an outgoing transition-to-place arc; in particular the transition of a
final term that is neither STOP nor a process name is wired to a fresh
terminal place, never left dangling. -/
theorem c6_no_dangling_transition (text : String) (st : PState)
    (h : parseResultL text.data = Except.ok st) :
    ∀ t ∈ st.transitions, hasOutArc st.arcs t.id :=
  (parseResultL_inv text.data st h).1.2.1

/-- C6 witness: the no-dangling-transition statement evaluated on the
net of P = a. -/
theorem c6_witness :
    parseResultL "P = a".data = Except.ok netPa ∧
      ∀ t ∈ netPa.transitions, hasOutArc netPa.arcs t.id :=
  ⟨by rfl, c6_no_dangling_transition "P = a" netPa (by rfl)⟩

/-! Invariants of the reachability exploration loop. -/

theorem lookupMark_mem {l : List (List Nat × Nat)} {k : List Nat} {v : Nat}
    (h : lookupMark l k = some v) : (k, v) ∈ l := by
  induction l with
  | nil => simp [lookupMark] at h
  | cons kv rest ih =>
    by_cases hk : kv.1 = k
    · simp only [lookupMark, hk, if_pos, Option.some.injEq] at h
      cases kv
      simp_all
    · simp only [lookupMark, hk, if_neg, not_false_eq_true] at h
      exact List.mem_cons_of_mem _ (ih h)

theorem lookupMark_append_some {l l2 : List (List Nat × Nat)} {k : List Nat} {v : Nat}
    (h : lookupMark l k = some v) : lookupMark (l ++ l2) k = some v := by
  induction l with
  | nil => simp [lookupMark] at h
  | cons kv rest ih =>
    by_cases hk : kv.1 = k
    · simp only [lookupMark, hk, if_pos] at h ⊢
      exact h
    · simp only [lookupMark, hk, if_neg, not_false_eq_true, List.cons_append] at h ⊢
      exact ih h

theorem lookupMark_append_fresh {l : List (List Nat × Nat)} {k : List Nat} (v : Nat)
    (h : lookupMark l k = none) : lookupMark (l ++ [(k, v)]) k = some v := by
  induction l with
  | nil => simp [lookupMark]
  | cons kv rest ih =>
    by_cases hk : kv.1 = k
    · simp only [lookupMark, hk, if_pos] at h
      cases h
    · simp only [lookupMark, hk, if_neg, not_false_eq_true, List.cons_append] at h ⊢
      exact ih h

theorem mem_insertSorted_self (x : Nat) (l : List Nat) : x ∈ insertSorted x l := by
  induction l with
  | nil => simp [insertSorted]
  | cons y ys ih =>
    by_cases h1 : x < y
    · simp [insertSorted, h1]
    · by_cases h2 : x = y
      · simp [insertSorted, h1, h2]
      · simp only [insertSorted, h1, h2, if_neg, not_false_eq_true]
        exact List.mem_cons_of_mem _ ih

theorem mem_insertSorted_of_mem {y : Nat} {l : List Nat} (h : y ∈ l) (x : Nat) :
    y ∈ insertSorted x l := by
  induction l with
  | nil => cases h
  | cons z zs ih =>
    by_cases h1 : x < z
    · simp only [insertSorted, h1, if_pos]
      exact List.mem_cons_of_mem _ h
    · by_cases h2 : x = z
      · subst h2
        simp only [insertSorted, lt_irrefl, if_neg, not_false_eq_true, if_pos]
        exact h
      · simp only [insertSorted, h1, h2, if_neg, not_false_eq_true]
        rcases List.mem_cons.1 h with h3 | h3
        · exact h3 ▸ List.mem_cons_self _ _
        · exact List.mem_cons_of_mem _ (ih h3)

theorem mem_markUnion_right {x : Nat} {d : List Nat} (h : x ∈ d) (o : List Nat) :
    x ∈ markUnion o d := by
  induction o generalizing d with
  | nil => exact h
  | cons y ys ih =>
    exact ih (mem_insertSorted_of_mem h y)

theorem mem_markUnion_left {x : Nat} {o : List Nat} (h : x ∈ o) (d : List Nat) :
    x ∈ markUnion o d := by
  induction o generalizing d with
  | nil => cases h
  | cons y ys ih =>
    rcases List.mem_cons.1 h with h1 | h1
    · subst h1
      exact mem_markUnion_right (mem_insertSorted_self x d) ys
    · exact ih h1 (insertSorted y d)

theorem markDiff_nil (m : List Nat) : markDiff m [] = m := by
  induction m with
  | nil => rfl
  | cons x t ih =>
    simp only [markDiff, List.filter_cons] at ih ⊢
    simp [ih]

theorem inputPlaces_nil_of_no_arcs {arcs : List Arc} {tid : Nat}
    (h : ∀ a ∈ arcs, a.isPlaceToTransition = true → a.targetId ≠ tid) :
    inputPlaces arcs tid = [] := by
  unfold inputPlaces
  have : (arcs.filterMap (fun a =>
      if a.targetId = tid ∧ a.isPlaceToTransition = true then some a.sourceId else none)) = [] := by
    rw [List.filterMap_eq_nil_iff]
    intro a ha
    have := h a ha
    by_cases hb : a.isPlaceToTransition = true
    · simp [hb, this hb]
    · simp [hb]
  rw [this]
  rfl

theorem eMono_refl (es : EState) : eMono es es :=
  ⟨fun _ h => h, fun _ h => h, fun _ h => h⟩

theorem eMono_trans {e1 e2 e3 : EState} (h1 : eMono e1 e2) (h2 : eMono e2 e3) :
    eMono e1 e3 :=
  ⟨fun mi hmi => h2.1 mi (h1.1 mi hmi), fun e he => h2.2.1 e (h1.2.1 e he),
   fun m hm => h2.2.2 m (h1.2.2 m hm)⟩

theorem fireTransition_mono (arcs : List Arc) (cid : Nat) (m : List Nat)
    (st : EState) (t : Transition) : eMono st (fireTransition arcs cid m st t) := by
  unfold fireTransition
  by_cases hen : (inputPlaces arcs t.id).all (fun p => m.contains p) = true
  · rw [if_pos hen]
    dsimp only
    cases hlk : lookupMark st.stateToId
        (markUnion (outputPlaces arcs t.id) (markDiff m (inputPlaces arcs t.id))) with
    | some tid =>
      dsimp only
      exact ⟨fun mi hmi => hmi, fun e he => mem_append_l he, fun mm hm => hm⟩
    | none =>
      dsimp only
      exact ⟨fun mi hmi => mem_append_l hmi, fun e he => mem_append_l he,
        fun mm hm => mem_append_l hm⟩
  · rw [if_neg hen]
    exact eMono_refl st

theorem fireTransition_functional (arcs : List Arc) (cid : Nat) (m : List Nat)
    (st : EState) (t : Transition) (h : mapFunctional st) :
    mapFunctional (fireTransition arcs cid m st t) := by
  unfold fireTransition
  by_cases hen : (inputPlaces arcs t.id).all (fun p => m.contains p) = true
  · rw [if_pos hen]
    dsimp only
    cases hlk : lookupMark st.stateToId
        (markUnion (outputPlaces arcs t.id) (markDiff m (inputPlaces arcs t.id))) with
    | some tid => dsimp only; exact h
    | none =>
      dsimp only
      intro mi hmi
      simp only [List.mem_append, List.mem_cons, List.not_mem_nil, or_false] at hmi
      rcases hmi with hmi | hmi
      · exact lookupMark_append_some (h mi hmi)
      · subst hmi
        exact lookupMark_append_fresh _ hlk
  · rw [if_neg hen]
    exact h

theorem fireTransition_new_unexplored (arcs : List Arc) (cid : Nat) (m : List Nat)
    (st : EState) (t : Transition) :
    ∀ mi ∈ (fireTransition arcs cid m st t).stateToId,
      mi ∈ st.stateToId ∨ mi.1 ∈ (fireTransition arcs cid m st t).unexplored := by
  unfold fireTransition
  by_cases hen : (inputPlaces arcs t.id).all (fun p => m.contains p) = true
  · rw [if_pos hen]
    dsimp only
    cases hlk : lookupMark st.stateToId
        (markUnion (outputPlaces arcs t.id) (markDiff m (inputPlaces arcs t.id))) with
    | some tid => dsimp only; exact fun mi hmi => Or.inl hmi
    | none =>
      dsimp only
      intro mi hmi
      simp only [List.mem_append, List.mem_cons, List.not_mem_nil, or_false] at hmi
      rcases hmi with hmi | hmi
      · exact Or.inl hmi
      · subst hmi
        exact Or.inr (List.mem_append_right _ (List.mem_singleton_self _))
  · rw [if_neg hen]
    exact fun mi hmi => Or.inl hmi

theorem edgeFor_mono {t : Transition} {arcs : List Arc} {es es' : EState} {i : Nat}
    (hm : eMono es es') (h : edgeFor t arcs es i) : edgeFor t arcs es' i := by
  obtain ⟨e, he, h1, h2, mj, hmj, h3, h4⟩ := h
  exact ⟨e, hm.2.1 e he, h1, h2, mj, hm.1 mj hmj, h3, h4⟩

theorem fireTransition_fires (arcs : List Arc) (cid : Nat) (m : List Nat)
    (st : EState) (t : Transition) (hin : inputPlaces arcs t.id = []) :
    edgeFor t arcs (fireTransition arcs cid m st t) cid := by
  unfold fireTransition
  rw [hin]
  simp only [List.all_nil, if_true, markDiff_nil]
  cases hlk : lookupMark st.stateToId (markUnion (outputPlaces arcs t.id) m) with
  | some tid =>
    dsimp only
    refine ⟨{ source := cid, target := tid, name := t.name },
      List.mem_append_right _ (List.mem_singleton_self _), rfl, rfl,
      (markUnion (outputPlaces arcs t.id) m, tid), lookupMark_mem hlk, rfl, ?_⟩
    intro p hp
    exact mem_markUnion_left hp m
  | none =>
    dsimp only
    refine ⟨{ source := cid, target := st.nextId, name := t.name },
      List.mem_append_right _ (List.mem_singleton_self _), rfl, rfl,
      (markUnion (outputPlaces arcs t.id) m, st.nextId),
      List.mem_append_right _ (List.mem_singleton_self _), rfl, ?_⟩
    intro p hp
    exact mem_markUnion_left hp m

theorem foldl_fire_mono (arcs : List Arc) (cid : Nat) (m : List Nat) :
    ∀ (ts : List Transition) (st : EState),
      eMono st (ts.foldl (fireTransition arcs cid m) st) := by
  intro ts
  induction ts with
  | nil => intro st; exact eMono_refl st
  | cons t rest ih =>
    intro st
    rw [List.foldl_cons]
    exact eMono_trans (fireTransition_mono arcs cid m st t) (ih _)

theorem foldl_fire_functional (arcs : List Arc) (cid : Nat) (m : List Nat) :
    ∀ (ts : List Transition) (st : EState), mapFunctional st →
      mapFunctional (ts.foldl (fireTransition arcs cid m) st) := by
  intro ts
  induction ts with
  | nil => intro st h; exact h
  | cons t rest ih =>
    intro st h
    rw [List.foldl_cons]
    exact ih _ (fireTransition_functional arcs cid m st t h)

theorem foldl_fire_new_unexplored (arcs : List Arc) (cid : Nat) (m : List Nat) :
    ∀ (ts : List Transition) (st : EState),
      ∀ mi ∈ (ts.foldl (fireTransition arcs cid m) st).stateToId,
        mi ∈ st.stateToId ∨ mi.1 ∈ (ts.foldl (fireTransition arcs cid m) st).unexplored := by
  intro ts
  induction ts with
  | nil => intro st mi hmi; exact Or.inl hmi
  | cons t rest ih =>
    intro st mi hmi
    rw [List.foldl_cons] at hmi ⊢
    rcases ih (fireTransition arcs cid m st t) mi hmi with h1 | h1
    · rcases fireTransition_new_unexplored arcs cid m st t mi h1 with h2 | h2
      · exact Or.inl h2
      · exact Or.inr ((foldl_fire_mono arcs cid m rest _).2.2 _ h2)
    · exact Or.inr h1

theorem foldl_fire_fires (arcs : List Arc) (cid : Nat) (m : List Nat)
    {t : Transition} (hin : inputPlaces arcs t.id = []) :
    ∀ (ts : List Transition), t ∈ ts → ∀ (st : EState),
      edgeFor t arcs (ts.foldl (fireTransition arcs cid m) st) cid := by
  intro ts
  induction ts with
  | nil => intro ht; cases ht
  | cons u rest ih =>
    intro ht st
    rw [List.foldl_cons]
    rcases List.mem_cons.1 ht with h1 | h1
    · subst h1
      exact edgeFor_mono (foldl_fire_mono arcs cid m rest _)
        (fireTransition_fires arcs cid m st t hin)
    · exact ih h1 _

theorem exploreStep_inv (ts : List Transition) (arcs : List Arc) (t : Transition)
    (ht : t ∈ ts) (hin : inputPlaces arcs t.id = [])
    (es : EState) (m : List Nat) (rest : List (List Nat))
    (hu : es.unexplored = m :: rest) (hinv : exploreInv t arcs es) :
    exploreInv t arcs (exploreStep ts arcs m { es with unexplored := rest }) := by
  obtain ⟨hfun, hall⟩ := hinv
  unfold exploreStep
  constructor
  · exact foldl_fire_functional arcs _ m ts _ hfun
  · intro mi hmi
    rcases foldl_fire_new_unexplored arcs _ m ts _ mi hmi with h1 | h1
    · rcases hall mi h1 with h2 | h2
      · rw [hu] at h2
        rcases List.mem_cons.1 h2 with h3 | h3
        · have hcid : lookupMark es.stateToId m = some mi.2 := by
            rw [← h3]
            exact hfun mi h1
          have : (lookupMark es.stateToId m).getD 0 = mi.2 := by rw [hcid]; rfl
          rw [← this]
          exact Or.inr (foldl_fire_fires arcs _ m hin ts ht _)
        · exact Or.inl ((foldl_fire_mono arcs _ m ts _).2.2 _ h3)
      · exact Or.inr (edgeFor_mono (foldl_fire_mono arcs _ m ts _) h2)
    · exact Or.inl h1

theorem exploreLoop_inv (ts : List Transition) (arcs : List Arc) (t : Transition)
    (ht : t ∈ ts) (hin : inputPlaces arcs t.id = []) :
    ∀ (fuel : Nat) (es es' : EState), exploreInv t arcs es →
      exploreLoop ts arcs fuel es = some es' →
      exploreInv t arcs es' ∧ es'.unexplored = [] := by
  intro fuel
  induction fuel with
  | zero =>
    intro es es' hinv h
    simp only [exploreLoop] at h
    by_cases hu : es.unexplored.isEmpty
    · rw [if_pos hu] at h
      simp only [Option.some.injEq] at h
      subst h
      exact ⟨hinv, List.isEmpty_iff.1 hu⟩
    · rw [if_neg hu] at h
      cases h
  | succ f ih =>
    intro es es' hinv h
    simp only [exploreLoop] at h
    cases hu : es.unexplored with
    | nil =>
      rw [hu] at h
      simp only [Option.some.injEq] at h
      subst h
      exact ⟨hinv, hu⟩
    | cons m rest =>
      rw [hu] at h
      exact ih _ es' (exploreStep_inv ts arcs t ht hin es m rest hu hinv) h

/-- C10: a transition with no incoming place-to-transition arcs has an
empty input-place set, hence is enabled in every marking; whenever the
exploration completes, every state of the produced machine has an
outgoing edge labeled with that transition's name whose target state's
marking contains all of the transition's output places. -/
theorem c10_source_transition_fires_everywhere (fuel : Nat) (places : List Place)
    (ts : List Transition) (arcs : List Arc) (t : Transition) (ht : t ∈ ts)
    (hno : ∀ a ∈ arcs, a.isPlaceToTransition = true → a.targetId ≠ t.id)
    (sm : SM) (hrun : petriToStateMachine fuel places ts arcs = some sm) :
    ∀ s ∈ sm.states, ∃ e ∈ sm.edges, e.source = s.id ∧ e.name = t.name ∧
      ∃ s' ∈ sm.states, s'.id = e.target ∧
        ∀ p ∈ outputPlaces arcs t.id, p ∈ s'.places := by
  have hin : inputPlaces arcs t.id = [] := inputPlaces_nil_of_no_arcs hno
  unfold petriToStateMachine at hrun
  dsimp only at hrun
  cases hloop : exploreLoop ts arcs fuel
      { stateToId := [(initialMarking places, 0)],
        unexplored := [initialMarking places], nextId := 1, edges := [] } with
  | none => rw [hloop] at hrun; cases hrun
  | some fin =>
    rw [hloop] at hrun
    simp only [Option.some.injEq] at hrun
    subst hrun
    have hinv0 : exploreInv t arcs
        { stateToId := [(initialMarking places, 0)],
          unexplored := [initialMarking places], nextId := 1, edges := [] } := by
      constructor
      · intro mi hmi
        simp only [List.mem_singleton] at hmi
        subst hmi
        simp [lookupMark]
      · intro mi hmi
        simp only [List.mem_singleton] at hmi
        subst hmi
        exact Or.inl (List.mem_singleton_self _)
    obtain ⟨⟨hfun, hall⟩, hemp⟩ :=
      exploreLoop_inv ts arcs t ht hin fuel _ fin hinv0 hloop
    intro s hs
    simp only [mkStates, List.mem_map] at hs
    obtain ⟨mi, hmi, hmieq⟩ := hs
    rcases hall mi hmi with hunex | hedge
    · rw [hemp] at hunex
      cases hunex
    · obtain ⟨e, he, hsrc, hname, mj, hmj, htgt, hout⟩ := hedge
      refine ⟨e, he, ?_, hname, ?_⟩
      · rw [← hmieq]
        exact hsrc
      · refine ⟨{ id := mj.2,
                  name := "State " ++ toString mj.2,
                  places := mj.1,
                  placeNames := sortNames (mj.1.filterMap (placeNameOf places)),
                  isInitial := mj.2 = 0 }, ?_, htgt, ?_⟩
        · simp only [mkStates, List.mem_map]
          exact ⟨mj, hmj, rfl⟩
        · intro p hp
          exact hout p hp

/-- C10 witness: the theorem's hypotheses and conclusion evaluated on a
net consisting of a single transition and no arcs or places. -/
theorem c10_witness :
    loneTransition ∈ [loneTransition] ∧
      (∀ a ∈ ([] : List Arc),
        a.isPlaceToTransition = true → a.targetId ≠ loneTransition.id) ∧
      petriToStateMachine 2 [] [loneTransition] [] = some loneSM ∧
      (∀ s ∈ loneSM.states, ∃ e ∈ loneSM.edges,
        e.source = s.id ∧ e.name = loneTransition.name ∧
        ∃ s' ∈ loneSM.states, s'.id = e.target ∧
          ∀ p ∈ outputPlaces ([] : List Arc) loneTransition.id, p ∈ s'.places) :=
  ⟨List.mem_singleton_self _, by simp, by rfl,
    c10_source_transition_fires_everywhere 2 [] [loneTransition] []
      loneTransition (List.mem_singleton_self _) (by simp) loneSM (by rfl)⟩

end ProcessNet
